import Mathlib

/-!
Verification of the artist2json JSON-management core: the JSON
transformation engine (`src/services/jsonManagementService.ts`) and the
sliding-window rate limiter (the `useRateLimiter` hook).

JSON values are modelled by the inductive type `JVal`.  JavaScript numbers
are modelled as integers: every numeric literal appearing in the data and
properties under study is integral, so float-specific behaviour is not
exercised.  JavaScript `undefined` is represented by `jnull` at the few
places it can arise (missing-property lookups), where the code under
study treats the two identically.
-/

namespace Artist2Json

/-- A JSON value as the JavaScript runtime sees it.  Objects are ordered
association lists (JS objects enumerate string keys in insertion order);
JS guarantees the keys of one object are pairwise distinct, which the
embedding states separately as `WFObj` where a proof needs it. -/
inductive JVal : Type where
  | jnull : JVal
  | jbool (b : Bool) : JVal
  | jnum (n : Int) : JVal
  | jstr (s : String) : JVal
  | jarr (elems : List JVal) : JVal
  | jobj (entries : List (String × JVal)) : JVal
deriving Repr, Inhabited

open JVal

/-- Structural equality on JSON values, decidably.  (On primitives this is
exactly the `===` / SameValueZero comparison JS sets and `===` checks use;
JS compares objects by reference, which a shallow embedding cannot
express, so object comparisons are structural here.) -/
def JVal.decEq : (a b : JVal) → Decidable (a = b)
  | jnull, jnull => isTrue rfl
  | jnull, jbool _ => isFalse (by simp)
  | jnull, jnum _ => isFalse (by simp)
  | jnull, jstr _ => isFalse (by simp)
  | jnull, jarr _ => isFalse (by simp)
  | jnull, jobj _ => isFalse (by simp)
  | jbool _, jnull => isFalse (by simp)
  | jbool a, jbool b =>
      if h : a = b then isTrue (by rw [h]) else isFalse (by simp [h])
  | jbool _, jnum _ => isFalse (by simp)
  | jbool _, jstr _ => isFalse (by simp)
  | jbool _, jarr _ => isFalse (by simp)
  | jbool _, jobj _ => isFalse (by simp)
  | jnum _, jnull => isFalse (by simp)
  | jnum _, jbool _ => isFalse (by simp)
  | jnum a, jnum b =>
      if h : a = b then isTrue (by rw [h]) else isFalse (by simp [h])
  | jnum _, jstr _ => isFalse (by simp)
  | jnum _, jarr _ => isFalse (by simp)
  | jnum _, jobj _ => isFalse (by simp)
  | jstr _, jnull => isFalse (by simp)
  | jstr _, jbool _ => isFalse (by simp)
  | jstr _, jnum _ => isFalse (by simp)
  | jstr a, jstr b =>
      if h : a = b then isTrue (by rw [h]) else isFalse (by simp [h])
  | jstr _, jarr _ => isFalse (by simp)
  | jstr _, jobj _ => isFalse (by simp)
  | jarr _, jnull => isFalse (by simp)
  | jarr _, jbool _ => isFalse (by simp)
  | jarr _, jnum _ => isFalse (by simp)
  | jarr _, jstr _ => isFalse (by simp)
  | jarr [], jarr [] => isTrue rfl
  | jarr [], jarr (_ :: _) => isFalse (by simp)
  | jarr (_ :: _), jarr [] => isFalse (by simp)
  | jarr (x :: xs), jarr (y :: ys) =>
      match JVal.decEq x y, JVal.decEq (jarr xs) (jarr ys) with
      | isTrue h1, isTrue h2 => isTrue (by
          injection h2 with h3
          rw [h1, h3])
      | isFalse h1, _ => isFalse (by
          intro he
          injection he with h
          injection h with hh ht
          exact h1 hh)
      | _, isFalse h2 => isFalse (by
          intro he
          injection he with h
          injection h with hh ht
          exact h2 (by rw [ht]))
  | jarr _, jobj _ => isFalse (by simp)
  | jobj _, jnull => isFalse (by simp)
  | jobj _, jbool _ => isFalse (by simp)
  | jobj _, jnum _ => isFalse (by simp)
  | jobj _, jstr _ => isFalse (by simp)
  | jobj _, jarr _ => isFalse (by simp)
  | jobj [], jobj [] => isTrue rfl
  | jobj [], jobj (_ :: _) => isFalse (by simp)
  | jobj (_ :: _), jobj [] => isFalse (by simp)
  | jobj ((k, v) :: l), jobj ((k2, v2) :: m) =>
      if hk : k = k2 then
        match JVal.decEq v v2, JVal.decEq (jobj l) (jobj m) with
        | isTrue h1, isTrue h2 => isTrue (by
            injection h2 with h3
            rw [hk, h1, h3])
        | isFalse h1, _ => isFalse (by
            intro he
            injection he with h
            injection h with hh ht
            exact h1 (congrArg Prod.snd hh))
        | _, isFalse h2 => isFalse (by
            intro he
            injection he with h
            injection h with hh ht
            exact h2 (by rw [ht]))
      else isFalse (by
        intro he
        injection he with h
        injection h with hh ht
        exact hk (congrArg Prod.fst hh))

instance : DecidableEq JVal := JVal.decEq

/-- JS truthiness (`if (v)`): `null`, `false`, `0` and `""` are falsy;
arrays and objects are always truthy. -/
def truthy : JVal → Bool
  | jnull => false
  | jbool b => b
  | jnum n => n != 0
  | jstr s => s ≠ ""
  | jarr _ => true
  | jobj _ => true

/-- Property access `obj[k]`: `some` value for an object that has the key,
`none` (JS `undefined`) otherwise.  (Property access on `null` throws in
JS; records fed to the merge/dedup routines are plain objects.) -/
def getField : JVal → String → Option JVal
  | jobj l, k => (l.find? (fun p => p.1 == k)).map Prod.snd
  | _, _ => none

/-- String-escape for JSON.stringify: the escapes relevant to this
code base (quote, backslash, and common control characters). -/
def escapeJSONChar (c : Char) : List Char :=
  if c = '"' then ['\\', '"']
  else if c = '\\' then ['\\', '\\']
  else if c = '\n' then ['\\', 'n']
  else if c = '\r' then ['\\', 'r']
  else if c = '\t' then ['\\', 't']
  else [c]

def quoteJSONString (s : String) : String :=
  "\"" ++ String.mk (s.data.flatMap escapeJSONChar) ++ "\""

mutual
/-- `JSON.stringify` on a value (integral numbers render as in JS). -/
def jsonStringify : JVal → String
  | jnull => "null"
  | jbool true => "true"
  | jbool false => "false"
  | jnum n => toString n
  | jstr s => quoteJSONString s
  | jarr xs => "[" ++ stringifyList xs ++ "]"
  | jobj l => "\x7b" ++ stringifyEntries l ++ "\x7d"
termination_by v => sizeOf v

/-- The comma-joined serializations of an array's elements. -/
def stringifyList : List JVal → String
  | [] => ""
  | [x] => jsonStringify x
  | x :: y :: t => jsonStringify x ++ "," ++ stringifyList (y :: t)
termination_by l => sizeOf l

/-- The comma-joined `"key":value` serializations of an object's entries. -/
def stringifyEntries : List (String × JVal) → String
  | [] => ""
  | [(k, v)] => quoteJSONString k ++ ":" ++ jsonStringify v
  | (k, v) :: q :: t =>
      quoteJSONString k ++ ":" ++ jsonStringify v ++ "," ++ stringifyEntries (q :: t)
termination_by l => sizeOf l
end

/-- JS `String(v)` for primitives — the only values the modelled call
sites apply it to: `createRecordKey` and `csvEscape` both route arrays
and objects elsewhere behind a `typeof` test, so the last two arms exist
only for totality (they render the empty array and the plain object as
JS does; joining a non-empty array's elements is never reached). -/
def jsToString : JVal → String
  | jnull => "null"
  | jbool true => "true"
  | jbool false => "false"
  | jnum n => toString n
  | jstr s => s
  | jarr _ => ""
  | jobj _ => "[object Object]"

/-! ## Merger (`combineJSONFiles` / `mergeArrays` / `getRecordKey`) -/

/-- `item[k]` when present and truthy, else `none` (the `if (item.k)`
pattern of `getRecordKey`). -/
def fieldIfTruthy (item : JVal) (k : String) : Option JVal :=
  match getField item k with
  | some v => if truthy v then some v else none
  | none => none

/-- `getRecordKey` (jsonManagementService.ts lines 575-580): the first
present-and-truthy of `artistName`, `id`, `name`, else the record's full
`JSON.stringify` serialization. -/
def getRecordKey (item : JVal) : JVal :=
  match fieldIfTruthy item "artistName" with
  | some v => v
  | none =>
    match fieldIfTruthy item "id" with
    | some v => v
    | none =>
      match fieldIfTruthy item "name" with
      | some v => v
      | none => jstr (jsonStringify item)

/-- The entries an operand contributes to a spread `{...v}`: an object's
own entries; primitives and `null` contribute none.  (The one further JS
case, a string spreading to index-keyed characters, is not exercised by
the merge code under study.) -/
def spreadEntries : JVal → List (String × JVal)
  | jobj l => l
  | _ => []

/-- `{ ...a, ...b }`: `a`'s keys in order, each overridden by `b`'s value
when `b` also has the key, followed by `b`-only keys in `b`'s order. -/
def shallowMerge (a b : JVal) : JVal :=
  let la := spreadEntries a
  let lb := spreadEntries b
  jobj ((la.map fun p => (p.1, (((lb.find? fun q => q.1 == p.1).map Prod.snd).getD p.2)))
    ++ lb.filter fun q => !(la.any fun p => p.1 == q.1))

inductive MergeStrategy : Type where
  | append : MergeStrategy
  | merge : MergeStrategy
  | replace : MergeStrategy
deriving Repr, DecidableEq

inductive ConflictResolution : Type where
  | keep_first : ConflictResolution
  | keep_last : ConflictResolution
  | combine : ConflictResolution
deriving Repr, DecidableEq

structure CombineOptions where
  mergeStrategy : MergeStrategy
  conflictResolution : ConflictResolution

/-- One iteration of `mergeArrays`' forEach over `second` (lines
545-567).  `firstKeys` is the key set captured from `first` once before
the loop and never extended — so a record of `second` whose key is new
is appended without registering its key. -/
def mergeStep (cr : ConflictResolution) (firstKeys : List JVal)
    (merged : List JVal) (item : JVal) : List JVal :=
  let key := getRecordKey item
  if key ∈ firstKeys then
    match merged.findIdx? (fun existing => getRecordKey existing == key) with
    | some i =>
      match cr with
      | .keep_first => merged
      | .keep_last => merged.set i item
      | .combine => merged.set i (shallowMerge (merged.getD i jnull) item)
    | none => merged
  else merged ++ [item]

/-- `mergeArrays` (lines 541-570): start from a copy of `first`, fold the
records of `second` through `mergeStep`. -/
def mergeArrays (first second : List JVal) (cr : ConflictResolution) : List JVal :=
  second.foldl (mergeStep cr (first.map getRecordKey)) first

/-- `combineTwo` (lines 522-536). -/
def combineTwo (first second : List JVal) (options : CombineOptions) : List JVal :=
  match options.mergeStrategy with
  | .append => first ++ second
  | .merge => mergeArrays first second options.conflictResolution
  | .replace => second

/-- `combineJSONFiles` (lines 506-517): left fold of `combineTwo` over the
input files (a single file is returned unchanged, zero files give `[]`). -/
def combineJSONFiles (files : List (List JVal)) (options : CombineOptions) : List JVal :=
  match files with
  | [] => []
  | f :: rest => rest.foldl (fun acc g => combineTwo acc g options) f

/-! ## Deduplicator (`deduplicateJSON` and helpers) -/

/-- Stable insertion into a list sorted by a string key: an element is
inserted after every entry with a strictly smaller key and before the
rest.  This is the key-only, stable comparison `Object.keys(obj).sort()`
performs (JS sorts by UTF-16 code units; Lean's `<` on `String` is
lexicographic by code point, and the two agree on the
basic-multilingual-plane keys this repository handles). -/
def insertByKey {α : Type} (keyOf : α → String) (p : α) : List α → List α
  | [] => [p]
  | q :: t => if keyOf q < keyOf p then q :: insertByKey keyOf p t else p :: q :: t

/-- Insertion sort by string key (stable). -/
def sortByKey {α : Type} (keyOf : α → String) : List α → List α
  | [] => []
  | p :: t => insertByKey keyOf p (sortByKey keyOf t)

mutual
/-- `normalizeForComparison` (lines 652-670): recursively sort every
object's keys; arrays map the normalization over their elements.  In the
source the keys are sorted and the values then normalized; the sort is
stable and compares keys only, so normalizing the values first (via
`normalizeEntries`) and sorting the resulting entry list — the order
written here, which keeps the recursion structural — produces the same
entry list. -/
def normalizeForComparison : JVal → JVal
  | jnull => jnull
  | jbool b => jbool b
  | jnum n => jnum n
  | jstr s => jstr s
  | jarr xs => jarr (normalizeList xs)
  | jobj l => jobj (sortByKey Prod.fst (normalizeEntries l))
termination_by v => sizeOf v

/-- Elementwise normalization of an array's elements. -/
def normalizeList : List JVal → List JVal
  | [] => []
  | x :: t => normalizeForComparison x :: normalizeList t
termination_by l => sizeOf l

/-- Valuewise normalization of an object's entries. -/
def normalizeEntries : List (String × JVal) → List (String × JVal)
  | [] => []
  | (k, v) :: t => (k, normalizeForComparison v) :: normalizeEntries t
termination_by l => sizeOf l
end

/-- `createRecordKey` (lines 635-647): the deduplication fingerprint.
`null`/`undefined` records give the constant "null"; records that are not
objects (`typeof record !== 'object'`) give `String(record)`; objects and
arrays (both have JS `typeof` "object") give the `JSON.stringify` of the
key-normalized record. -/
def createRecordKey : JVal → String
  | jnull => "null"
  | jbool b => jsToString (jbool b)
  | jnum n => jsToString (jnum n)
  | jstr s => jsToString (jstr s)
  | jarr xs => jsonStringify (normalizeForComparison (jarr xs))
  | jobj l => jsonStringify (normalizeForComparison (jobj l))

/-- `p` occurs at the start of `hay`. -/
def startsWithChars : List Char → List Char → Bool
  | [], _ => true
  | _ :: _, [] => false
  | a :: as, b :: bs => a == b && startsWithChars as bs

/-- `sub` occurs contiguously somewhere in the second list. -/
def containsSub (sub : List Char) : List Char → Bool
  | [] => sub.isEmpty
  | c :: t => startsWithChars sub (c :: t) || containsSub sub t

/-- JS `hay.includes(sub)`. -/
def strIncludes (hay sub : String) : Bool := containsSub sub.data hay.data

/-- JS `s.startsWith(p)`. -/
def strStartsWith (s p : String) : Bool := startsWithChars p.data s.data

/-- The fixed identifier-fragment list of `identifyDuplicateKeys`. -/
def commonIdFields : List String :=
  ["id", "ID", "_id", "objectId",
   "artistName", "name", "title",
   "musicBrainzArtistID", "musicBrainzId", "mbid",
   "email", "username", "userId",
   "url", "link", "href"]

/-- Add to a JS `Set` kept as an insertion-ordered duplicate-free list. -/
def addToStrSet (s : List String) (x : String) : List String :=
  if x ∈ s then s else s ++ [x]

/-- `identifyDuplicateKeys` (lines 675-700): for a dropped duplicate
record, collect its top-level keys whose lower-cased name contains one of
the `commonIdFields` fragments (lower-cased), and keys whose string value
starts with "http". -/
def identifyDuplicateKeys (record : JVal) (dups : List String) : List String :=
  match record with
  | jobj l =>
    l.foldl (fun acc p =>
      let acc1 := if commonIdFields.any (fun f => strIncludes p.1.toLower f.toLower)
        then addToStrSet acc p.1 else acc
      match p.2 with
      | jstr s => if strStartsWith s "http" then addToStrSet acc1 p.1 else acc1
      | _ => acc1) dups
  | _ => dups

/-- The forEach body of `deduplicateJSON` (lines 607-621) applied to the
remaining records, given the fingerprints already seen and the suspected
identifier keys collected so far.  Returns the kept records, the final
suspected-key set, and the number of removed records. -/
def dedupGo (seen : List String) (dups : List String) :
    List JVal → List JVal × List String × Nat
  | [] => ([], dups, 0)
  | r :: t =>
    let recordKey := createRecordKey r
    if recordKey ∈ seen then
      let out := dedupGo seen (identifyDuplicateKeys r dups) t
      (out.1, out.2.1, out.2.2 + 1)
    else
      let out := dedupGo (recordKey :: seen) dups t
      (r :: out.1, out.2.1, out.2.2)

structure DedupResult where
  originalCount : Nat
  deduplicatedCount : Nat
  removedCount : Nat
  duplicateKeys : List String
  deduplicatedData : List JVal
deriving Repr

/-- `deduplicateJSON` (lines 585-630). -/
def deduplicateJSON (data : List JVal) : DedupResult :=
  match data with
  | [] => ⟨0, 0, 0, [], []⟩
  | _ =>
    let out := dedupGo [] [] data
    { originalCount := data.length
      deduplicatedCount := out.1.length
      removedCount := out.2.2
      duplicateKeys := out.2.1
      deduplicatedData := out.1 }

/-- Modelled from the spec: §4.4's deduplication policy as written —
"iterate input in order, keep a record iff its fingerprint has not been
seen before" — used to compare `deduplicateJSON`'s output against the
spec's words. -/
def dedupSpecKeep (seen : List String) : List JVal → List JVal
  | [] => []
  | r :: t =>
    if createRecordKey r ∈ seen then dedupSpecKeep seen t
    else r :: dedupSpecKeep (createRecordKey r :: seen) t

/-! ## Projector (`createModifiedJSON` / `filterObject`) -/

/-- `path.join('.')`. -/
def joinPath (path : List String) : String := String.intercalate "." path

/-- JS `typeof v === 'object' && v !== null`: objects and arrays. -/
def isObjectLike : JVal → Bool
  | jobj _ => true
  | jarr _ => true
  | _ => false

/-- The keep test on a filtered nested value (line 247):
`Object.keys(nestedResult).length > 0 || Array.isArray(nestedResult)`.
The nested result of an object-like input is itself an object or an
array; arrays always pass (second disjunct). -/
def keepNested : JVal → Bool
  | jobj l => !l.isEmpty
  | jarr _ => true
  | _ => false

mutual
/-- `filterObject` (lines 223-258): keep an entry if its dotted path is
selected; otherwise, if the value is object-like and some selected path
lies strictly below it, keep the recursively filtered value when that
result is a non-empty object or an array; otherwise drop the entry.
Arrays map the filter over their elements with an `[]` path segment;
`null` and primitives pass through. -/
def filterObject (selectedPaths : List String) : JVal → List String → JVal
  | jnull, _ => jnull
  | jarr xs, currentPath => jarr (filterElems selectedPaths xs (currentPath ++ ["[]"]))
  | jobj l, currentPath => jobj (filterEntries selectedPaths l currentPath)
  | jbool b, _ => jbool b
  | jnum n, _ => jnum n
  | jstr s, _ => jstr s
termination_by v _ => sizeOf v

/-- `obj.map(item => this.filterObject(item, …))` over an array's
elements (the element path already carries the `[]` marker). -/
def filterElems (selectedPaths : List String) : List JVal → List String → List JVal
  | [], _ => []
  | x :: t, elemPath =>
      filterObject selectedPaths x elemPath :: filterElems selectedPaths t elemPath
termination_by l _ => sizeOf l

/-- The `Object.keys(obj).forEach` body of `filterObject` (lines
233-252), emitting zero or one output entries per input entry. -/
def filterEntries (selectedPaths : List String) :
    List (String × JVal) → List String → List (String × JVal)
  | [], _ => []
  | (k, v) :: t, currentPath =>
      (if joinPath (currentPath ++ [k]) ∈ selectedPaths then [(k, v)]
       else if isObjectLike v && selectedPaths.any
           (fun path => strStartsWith path (joinPath (currentPath ++ [k]) ++ ".")) then
         (if keepNested (filterObject selectedPaths v (currentPath ++ [k]))
          then [(k, filterObject selectedPaths v (currentPath ++ [k]))] else [])
       else [])
      ++ filterEntries selectedPaths t currentPath
termination_by l _ => sizeOf l
end

/-- A field-selection entry as `createModifiedJSON` consumes it: the
dotted path string and its `isSelected` flag (the other `JSONField`
components play no role in projection). -/
structure FieldSel where
  key : String
  isSelected : Bool

/-- `createModifiedJSON` (lines 201-218): project every record onto the
paths whose `isSelected` flag is set.  (The `console.log` tracing does
not affect the result and is not modelled.) -/
def createModifiedJSON (data : List JVal) (selectedFields : List FieldSel) : List JVal :=
  let selectedPaths := (selectedFields.filter (fun f => f.isSelected)).map (fun f => f.key)
  data.map fun record => filterObject selectedPaths record []

/-! ## SchemaAnalyzer (`analyzeJSONStructure` and helpers) -/

/-- `getValueType` (lines 132-136): `null` → "null", arrays → "array",
otherwise JS `typeof`. -/
def getValueType : JVal → String
  | jnull => "null"
  | jarr _ => "array"
  | jbool _ => "boolean"
  | jnum _ => "number"
  | jstr _ => "string"
  | jobj _ => "object"

/-- `getSampleValue` (lines 141-152).  String length and truncation
count characters; JS counts UTF-16 code units, identical on the
basic-multilingual-plane text this repository handles. -/
def getSampleValue : JVal → JVal
  | jstr s => if s.length > 100 then jstr (s.take 100 ++ "...") else jstr s
  | jarr xs => jstr ("Array[" ++ toString xs.length ++ "]")
  | jobj l => jstr ("Object\x7b" ++ toString l.length ++ " keys\x7d")
  | v => v

/-- The fixed lookup table of `generateFieldDescription` (lines 158-168);
every entry is a non-empty (truthy) string. -/
def descriptionTable : List (String × String) :=
  [("artistName", "Artist or band name"),
   ("musicBrainzArtistID", "Unique MusicBrainz identifier"),
   ("mvids", "Array of music videos"),
   ("status", "Processing status (pending/processing/completed/error)"),
   ("error", "Error message if processing failed"),
   ("strDescription", "Video description text (often large)"),
   ("strMusicVid", "Music video URL"),
   ("strTrackThumb", "Track thumbnail image URL"),
   ("intDuration", "Track duration in seconds")]

/-- `generateFieldDescription` (lines 157-183). -/
def generateFieldDescription (key : String) (value : JVal) : String :=
  match descriptionTable.find? (fun p => p.1 == key) with
  | some p => p.2
  | none =>
    if (match value with | jstr s => strStartsWith s "http" | _ => false) then
      "URL or web link"
    else if strIncludes key "ID" || strIncludes key "Id" then "Unique identifier"
    else ""

/-- A discovered field descriptor (`JSONField`). -/
structure JSONField where
  key : String
  type : String
  sampleValue : JVal
  isSelected : Bool
  path : List String
  description : String
deriving Repr

mutual
/-- `extractFields` (lines 95-127): walk a record accumulating one
descriptor per first-seen dotted path (the `Map` keeps insertion order,
modelled by an ordered list with a key-membership guard); descend into
object values, and into the first element of an array under an `[]`
segment. -/
def extractFields : JVal → List String → List JSONField → List JSONField
  | jnull, _, fm => fm
  | jarr [], _, fm => fm
  | jarr (x :: _), path, fm => extractFields x (path ++ ["[]"]) fm
  | jobj l, path, fm => extractEntries l path fm
  | jbool _, _, fm => fm
  | jnum _, _, fm => fm
  | jstr _, _, fm => fm
termination_by v _ _ => sizeOf v

/-- The `Object.keys(obj).forEach` body of `extractFields` (lines
106-125): register the entry's path if unseen, recurse into object-like
values, continue with the rest of the entries. -/
def extractEntries : List (String × JVal) → List String → List JSONField → List JSONField
  | [], _, fm => fm
  | (k, v) :: t, path, fm =>
      let newPath := path ++ [k]
      let fullKey := joinPath newPath
      let fm1 := if fm.any (fun f => f.key == fullKey) then fm
        else fm ++ [{ key := fullKey, type := getValueType v,
                      sampleValue := getSampleValue v, isSelected := true,
                      path := newPath,
                      description := generateFieldDescription k v }]
      let fm2 := if isObjectLike v then extractFields v newPath fm1 else fm1
      extractEntries t path fm2
termination_by l _ _ => sizeOf l
end

/-- Bump a type's tally in the `dataTypes` histogram (line 79),
an insertion-ordered association list standing in for the JS record. -/
def bumpCount (m : List (String × Nat)) (k : String) : List (String × Nat) :=
  if m.any (fun p => p.1 == k) then m.map (fun p => if p.1 == k then (p.1, p.2 + 1) else p)
  else m ++ [(k, 1)]

/-- The analysis result (`JSONStructure`).  The human-readable
`estimatedSize` string is carried as the byte count it formats
(`new Blob([JSON.stringify(data)]).size` measures the UTF-8 bytes of the
serialization); the `toFixed(1)` KB/MB presentation is display-only. -/
structure JSONStructure where
  fields : List JSONField
  totalRecords : Nat
  estimatedSizeBytes : Nat
  dataTypes : List (String × Nat)
deriving Repr

/-- `analyzeJSONStructure` (lines 51-90): scan the first 100 records,
collect descriptors, sort them by path string (`localeCompare`; on the
ASCII paths arising here that is plain lexicographic order), count
records and tally types. -/
def analyzeJSONStructure (data : List JVal) : JSONStructure :=
  match data with
  | [] => ⟨[], 0, (jsonStringify (jarr [])).utf8ByteSize, []⟩
  | _ =>
    let fieldMap := (data.take 100).foldl (fun fm record => extractFields record [] fm) []
    let fields := fieldMap.map (fun f => { f with isSelected := true })
    let dataTypes := fieldMap.foldl (fun m f => bumpCount m f.type) []
    { fields := sortByKey (fun f => f.key) fields
      totalRecords := data.length
      estimatedSizeBytes := (jsonStringify (jarr data)).utf8ByteSize
      dataTypes := dataTypes }

/-! ## TabularConverter (`convertToCSV` and helpers) -/

/-- `sanitizeColumnName` (lines 458-460): non-`[A-Za-z0-9_]` characters
become `_`, then lower-case. -/
def sanitizeColumnName (name : String) : String :=
  String.mk ((name.data.map fun c => if c.isAlphanum || c == '_' then c else '_').map
    Char.toLower)

/-- The recursive flattening inside `extractTableColumns` (lines
340-359), producing `(name, type)` pairs.  Numbers are modelled as
integers, so the `Number.isInteger` test always selects INTEGER; the
DECIMAL arm is unreachable in the model. -/
def extractFromEntries : List (String × JVal) → String → List (String × String)
  | [], _ => []
  | (k, v) :: t, pre =>
    let columnName := if pre == "" then k else pre ++ "_" ++ k
    (match v with
     | jnull => [(columnName, "TEXT")]
     | jnum _ => [(columnName, "INTEGER")]
     | jbool _ => [(columnName, "BOOLEAN")]
     | jarr _ => [(columnName, "JSON")]
     | jobj l2 => extractFromEntries l2 columnName
     | jstr _ => [(columnName, "TEXT")])
    ++ extractFromEntries t pre

/-- `extractTableColumns` (lines 337-363).  `Object.keys` of a
non-object sample yields no keys (the JS oddity of a string sample
enumerating its character indices, and the `TypeError` a `null` sample
raises, do not arise for the record arrays under study). -/
def extractTableColumns : JVal → List (String × String)
  | jobj l => extractFromEntries l ""
  | _ => []

/-- The walk inside `getNestedValue` (lines 465-478).  A missing
property (JS `undefined`) is modelled as `jnull`: the sole consumer
below renders `null` and `undefined` identically.  Descent into an
array by a numeric segment mirrors JS numeric property lookup. -/
def getNV : JVal → List String → JVal
  | cur, [] => cur
  | jobj l, k :: t => getNV (((l.find? fun p => p.1 == k).map Prod.snd).getD jnull) t
  | jarr xs, k :: t => getNV (match k.toNat? with | some i => xs.getD i jnull | none => jnull) t
  | _, _ :: _ => jnull

/-- `getNestedValue` (lines 465-478): split the column name on `_` and
descend. -/
def getNestedValue (record : JVal) (path : String) : JVal :=
  getNV record (path.splitOn "_")

/-- Double every `"` (the `str.replace(/"/g, '""')` of `csvEscape`). -/
def doubleQuotes : List Char → List Char
  | [] => []
  | c :: t => if c == '"' then '"' :: '"' :: doubleQuotes t else c :: doubleQuotes t

/-- The quoting step of `csvEscape` (lines 329-331): double the quotes,
and wrap in quotes iff the rendering contains a quote, comma, or newline
character (the regex test; the redundant `str.includes(',')` disjunct is
subsumed). -/
def csvEscapeStr (str : List Char) : List Char :=
  if str.any (fun c => c == '"' || c == ',' || c == '\n' || c == '\r')
  then '"' :: (doubleQuotes str ++ ['"'])
  else doubleQuotes str

/-- `csvEscape` (lines 321-332): `null`/`undefined` render empty;
objects and arrays render as their JSON serialization, other values as
`String(value)`; then the quoting step. -/
def csvEscape (value : JVal) : List Char :=
  match value with
  | jnull => []
  | jobj l => csvEscapeStr (jsonStringify (jobj l)).data
  | jarr xs => csvEscapeStr (jsonStringify (jarr xs)).data
  | v => csvEscapeStr (jsToString v).data

/-- `values.join(sep)`. -/
def joinWith (sep : Char) : List (List Char) → List Char
  | [] => []
  | [x] => x
  | x :: y :: t => x ++ sep :: joinWith sep (y :: t)

/-- One emitted data row of `convertToCSV` (lines 296-302): the escaped
per-column values joined with commas. -/
def csvRowFor (columns : List String) (record : JVal) : List Char :=
  joinWith ',' (columns.map fun col => csvEscape (getNestedValue record col))

/-- `convertToCSV` (lines 288-305). -/
def convertToCSV (data : List JVal) : String :=
  match data with
  | [] => ""
  | sample :: _ =>
    let columns := (extractTableColumns sample).map Prod.fst
    let header := joinWith ',' (columns.map fun col => (sanitizeColumnName col).data)
    let rows := data.map (csvRowFor columns)
    String.mk (joinWith '\n' (header :: rows))

/-- The quote-aware scan a CSV reader performs over one row: count the
top-level (outside-quotes) commas and track the quoting state.  A `""`
inside a quoted field toggles out and immediately back in, so the
automaton counts escaped quotes correctly. -/
def csvScan : Bool → List Char → Nat × Bool
  | q, [] => (0, q)
  | true, c :: t => csvScan (if c == '"' then false else true) t
  | false, c :: t =>
      if c == '"' then csvScan true t
      else
        let r := csvScan false t
        (r.1 + (if c == ',' then 1 else 0), r.2)

/-- Number of top-level comma-separated fields of a row, quoting taken
into account: one more than the number of top-level commas. -/
def csvFieldCount (cs : List Char) : Nat := (csvScan false cs).1 + 1

/-! ## RateLimiter (`useRateLimiter`, part_004)

The limiter is embedded as a labelled transition system over a dis-
crete-event state.  A submitted operation is modelled by its outcome
(`Except`): running the `fn` either fulfills with a value or rejects
with an error.  Time is an abstract non-decreasing `Nat` clock read
wherever the source calls `Date.now()`.

One step of the relation is one of the three atomic phases of the
source, atomic because no `await` falls inside it:
* `enqueue` — lines 60-65: push the item; the returned promise is the
  item's slot in `settled` once admitted and run.
* `tick` — time passes: the wait branch (lines 33-39), the 100 ms
  courtesy delay (line 54), and any time spent inside an awaited `fn`.
* `admitStep` — lines 24-51: one loop iteration that admits: prune the
  timestamps against the window (lines 28-30), check the admission guard
  (line 33) — the branch taken only below capacity — shift the head item
  (line 42), record `Date.now()` (line 46, a reading `t2` not earlier
  than the loop-top reading), run the item and settle its promise with
  the item's own outcome (lines 47-51).

The single worker (`isProcessing`, lines 20-22) means admissions never
interleave; concurrent `enqueue` calls only append, which the separate
`enqueue` step captures. -/

structure RLConfig where
  maxCalls : Nat
  timeWindow : Nat

/-- An enqueued zero-argument async operation, by its outcome. -/
abbrev AsyncOp := Except String JVal

/-- How a call's returned promise settles. -/
inductive Settlement : Type where
  | resolved (v : JVal)
  | rejected (e : String)
deriving Repr, DecidableEq

/-- Lines 47-51: `resolve(await fn())` on success, `reject(error)` on
failure — the promise settles with exactly the operation's own outcome. -/
def settleOp : AsyncOp → Settlement
  | .ok v => .resolved v
  | .error e => .rejected e

/-- The limiter state: the pending queue, the recorded admission
timestamps, the clock, the settlements produced so far (in admission
order), and the ghost history of everything ever enqueued. -/
structure RLState where
  queue : List AsyncOp
  callTimes : List Nat
  now : Nat
  settled : List Settlement
  enqueuedAll : List AsyncOp

/-- Number of recorded admission timestamps inside the trailing window
(`now - time < config.timeWindow`, lines 28-30). -/
def inWindowCount (cfg : RLConfig) (callTimes : List Nat) (now : Nat) : Nat :=
  (callTimes.filter fun t => now - t < cfg.timeWindow).length

inductive RLStep (cfg : RLConfig) : RLState → RLState → Prop where
  | enqueue (s : RLState) (op : AsyncOp) :
      RLStep cfg s { s with queue := s.queue ++ [op], enqueuedAll := s.enqueuedAll ++ [op] }
  | tick (s : RLState) (d : Nat) :
      RLStep cfg s { s with now := s.now + d }
  | admitStep (s : RLState) (op : AsyncOp) (rest : List AsyncOp) (t2 : Nat)
      (hq : s.queue = op :: rest)
      (hcap : inWindowCount cfg s.callTimes s.now < cfg.maxCalls)
      (ht : s.now ≤ t2) :
      RLStep cfg s
        { queue := rest
          callTimes := (s.callTimes.filter fun t => s.now - t < cfg.timeWindow) ++ [t2]
          now := t2
          settled := s.settled ++ [settleOp op]
          enqueuedAll := s.enqueuedAll }

/-- A fresh limiter (`queue.current = []`, `callTimes.current = []`). -/
def RLInit : RLState := ⟨[], [], 0, [], []⟩

/-- States an execution can reach from a fresh limiter. -/
def RLReachable (cfg : RLConfig) : RLState → Prop :=
  Relation.ReflTransGen (RLStep cfg) RLInit

/-! ## Key-order equivalence (for the fingerprint invariance claim) -/

mutual
/-- Two JSON values equal up to the order of object keys, at every
nesting depth: the object case relates the entry lists pointwise (same
keys, equivalent values) and then permutes. -/
inductive KeyPerm : JVal → JVal → Prop where
  | jnull : KeyPerm .jnull .jnull
  | jbool (b : Bool) : KeyPerm (.jbool b) (.jbool b)
  | jnum (n : Int) : KeyPerm (.jnum n) (.jnum n)
  | jstr (s : String) : KeyPerm (.jstr s) (.jstr s)
  | jarr {xs ys : List JVal} : KeyPermList xs ys → KeyPerm (.jarr xs) (.jarr ys)
  | jobj {l m l2 : List (String × JVal)} :
      KeyPermEntries l m → m.Perm l2 → KeyPerm (.jobj l) (.jobj l2)

/-- Pointwise `KeyPerm` on element lists. -/
inductive KeyPermList : List JVal → List JVal → Prop where
  | nil : KeyPermList [] []
  | cons {x y : JVal} {xs ys : List JVal} :
      KeyPerm x y → KeyPermList xs ys → KeyPermList (x :: xs) (y :: ys)

/-- Pointwise `KeyPerm` on entry lists, keys equal. -/
inductive KeyPermEntries : List (String × JVal) → List (String × JVal) → Prop where
  | nil : KeyPermEntries [] []
  | cons {k : String} {v w : JVal} {l m : List (String × JVal)} :
      KeyPerm v w → KeyPermEntries l m → KeyPermEntries ((k, v) :: l) ((k, w) :: m)
end

/-- Well-formedness a value deserialized from JSON has: the keys of every
object node are pairwise distinct (a JS object cannot hold a key twice,
but an association list can). -/
inductive WFObj : JVal → Prop where
  | jnull : WFObj .jnull
  | jbool (b : Bool) : WFObj (.jbool b)
  | jnum (n : Int) : WFObj (.jnum n)
  | jstr (s : String) : WFObj (.jstr s)
  | jarr {xs : List JVal} : (∀ x ∈ xs, WFObj x) → WFObj (.jarr xs)
  | jobj {l : List (String × JVal)} :
      (l.map Prod.fst).Nodup → (∀ p ∈ l, WFObj p.2) → WFObj (.jobj l)

/-! # Theorems -/

/-- Structural induction on `JVal` with membership hypotheses for the
nested lists. -/
theorem JVal.indOn {motive : JVal → Prop}
    (hnull : motive .jnull)
    (hbool : ∀ b, motive (.jbool b))
    (hnum : ∀ n, motive (.jnum n))
    (hstr : ∀ s, motive (.jstr s))
    (harr : ∀ xs, (∀ x ∈ xs, motive x) → motive (.jarr xs))
    (hobj : ∀ l, (∀ p ∈ l, motive p.2) → motive (.jobj l)) :
    ∀ v, motive v
  | .jnull => hnull
  | .jbool b => hbool b
  | .jnum n => hnum n
  | .jstr s => hstr s
  | .jarr xs => harr xs (fun x hx =>
      JVal.indOn hnull hbool hnum hstr harr hobj x)
  | .jobj l => hobj l (fun p hp =>
      JVal.indOn hnull hbool hnum hstr harr hobj p.2)
termination_by v => sizeOf v
decreasing_by
  all_goals simp_wf
  · have := List.sizeOf_lt_of_mem hx
    omega
  · have h1 := List.sizeOf_lt_of_mem hp
    have h2 : sizeOf p.2 < sizeOf p := by
      rcases p with ⟨a, b⟩
      simp
    omega

/-! ## Sorting lemmas (for the key-normalized fingerprint) -/

theorem insertByKey_perm {α : Type} (keyOf : α → String) (p : α) (l : List α) :
    (insertByKey keyOf p l).Perm (p :: l) := by
  induction l with
  | nil => simp [insertByKey]
  | cons q t ih =>
    simp only [insertByKey]
    by_cases h : keyOf q < keyOf p
    · simp only [if_pos h]
      exact (ih.cons q).trans (List.Perm.swap p q t)
    · simp only [if_neg h]
      exact List.Perm.refl _

theorem sortByKey_perm {α : Type} (keyOf : α → String) (l : List α) :
    (sortByKey keyOf l).Perm l := by
  induction l with
  | nil => simp [sortByKey]
  | cons p t ih => exact (insertByKey_perm keyOf p _).trans (ih.cons p)

theorem insertByKey_pairwise {α : Type} (keyOf : α → String) (p : α) {l : List α}
    (h : l.Pairwise (fun a b => keyOf a ≤ keyOf b)) :
    (insertByKey keyOf p l).Pairwise (fun a b => keyOf a ≤ keyOf b) := by
  induction l with
  | nil => simp [insertByKey]
  | cons q t ih =>
    rw [List.pairwise_cons] at h
    obtain ⟨hq, ht⟩ := h
    simp only [insertByKey]
    by_cases hlt : keyOf q < keyOf p
    · simp only [if_pos hlt]
      rw [List.pairwise_cons]
      refine ⟨?_, ih ht⟩
      intro b hb
      have hb2 := (insertByKey_perm keyOf p t).mem_iff.mp hb
      rcases List.mem_cons.mp hb2 with hb3 | hb3
      · rw [hb3]
        exact le_of_lt hlt
      · exact hq b hb3
    · simp only [if_neg hlt]
      rw [List.pairwise_cons]
      refine ⟨?_, ?_⟩
      · intro b hb
        rcases List.mem_cons.mp hb with hb3 | hb3
        · rw [hb3]
          exact not_lt.mp hlt
        · exact le_trans (not_lt.mp hlt) (hq b hb3)
      · rw [List.pairwise_cons]
        exact ⟨hq, ht⟩

theorem sortByKey_pairwise {α : Type} (keyOf : α → String) (l : List α) :
    (sortByKey keyOf l).Pairwise (fun a b => keyOf a ≤ keyOf b) := by
  induction l with
  | nil => simp [sortByKey]
  | cons p t ih => exact insertByKey_pairwise keyOf p ih

/-- Two permuted entry lists with duplicate-free keys sort identically:
the sorted order is fully determined by the (distinct) keys. -/
theorem sortByKey_eq_of_perm {α : Type} (keyOf : α → String) {l1 l2 : List α}
    (hp : l1.Perm l2) (hnd : (l1.map keyOf).Nodup) :
    sortByKey keyOf l1 = sortByKey keyOf l2 := by
  haveI : IsAntisymm α (fun a b => keyOf a < keyOf b) :=
    ⟨fun a b h1 h2 => absurd (h1.trans h2) (lt_irrefl _)⟩
  have hperm : (sortByKey keyOf l1).Perm (sortByKey keyOf l2) :=
    (sortByKey_perm keyOf l1).trans (hp.trans (sortByKey_perm keyOf l2).symm)
  have hnd1 : ((sortByKey keyOf l1).map keyOf).Nodup :=
    ((sortByKey_perm keyOf l1).map keyOf).nodup_iff.mpr hnd
  have hnd2 : ((sortByKey keyOf l2).map keyOf).Nodup :=
    ((sortByKey_perm keyOf l2).map keyOf).nodup_iff.mpr ((hp.map keyOf).nodup_iff.mp hnd)
  have hlt1 : (sortByKey keyOf l1).Pairwise (fun a b => keyOf a < keyOf b) :=
    ((sortByKey_pairwise keyOf l1).and (List.pairwise_map.mp hnd1)).imp
      (fun hab => lt_of_le_of_ne hab.1 hab.2)
  have hlt2 : (sortByKey keyOf l2).Pairwise (fun a b => keyOf a < keyOf b) :=
    ((sortByKey_pairwise keyOf l2).and (List.pairwise_map.mp hnd2)).imp
      (fun hab => lt_of_le_of_ne hab.1 hab.2)
  exact List.eq_of_perm_of_sorted hperm hlt1 hlt2

/-! ## Normalization is invariant under key reordering -/

theorem normalizeList_eq_map : ∀ xs : List JVal,
    normalizeList xs = xs.map normalizeForComparison := by
  intro xs
  induction xs with
  | nil => rw [normalizeList]; rfl
  | cons x t ih =>
    rw [normalizeList, ih]
    rfl

theorem normalizeEntries_eq_map : ∀ l : List (String × JVal),
    normalizeEntries l = l.map fun p => (p.1, normalizeForComparison p.2) := by
  intro l
  induction l with
  | nil => rw [normalizeEntries]; rfl
  | cons p t ih =>
    obtain ⟨k, v⟩ := p
    rw [normalizeEntries, ih]
    rfl

theorem normalize_jarr (xs : List JVal) :
    normalizeForComparison (jarr xs) = jarr (xs.map normalizeForComparison) := by
  rw [normalizeForComparison]
  rw [normalizeList_eq_map]

theorem normalize_jobj (l : List (String × JVal)) :
    normalizeForComparison (jobj l) =
      jobj (sortByKey Prod.fst (l.map fun p => (p.1, normalizeForComparison p.2))) := by
  rw [normalizeForComparison]
  rw [normalizeEntries_eq_map]

theorem keyPermEntries_keys_eq : ∀ {l m : List (String × JVal)},
    KeyPermEntries l m → l.map Prod.fst = m.map Prod.fst := by
  intro l
  induction l with
  | nil => intro m h; cases h; rfl
  | cons p t ih =>
    intro m h
    cases h with
    | cons hv hrest => simpa using ih hrest

theorem keyPermList_map_eq {xs ys : List JVal}
    (h : KeyPermList xs ys)
    (hwf : ∀ x ∈ xs, WFObj x)
    (ih : ∀ x ∈ xs, ∀ w, WFObj x → KeyPerm x w →
      normalizeForComparison x = normalizeForComparison w) :
    xs.map normalizeForComparison = ys.map normalizeForComparison := by
  induction xs generalizing ys with
  | nil => cases h; rfl
  | cons x t iht =>
    cases h with
    | cons hxy hrest =>
      simp only [List.map_cons]
      rw [ih x (by simp) _ (hwf x (by simp)) hxy]
      rw [iht hrest (fun a ha => hwf a (List.mem_cons_of_mem x ha))
        (fun a ha => ih a (List.mem_cons_of_mem x ha))]

theorem keyPermEntries_map_eq {l m : List (String × JVal)}
    (h : KeyPermEntries l m)
    (hwf : ∀ p ∈ l, WFObj p.2)
    (ih : ∀ p ∈ l, ∀ w, WFObj p.2 → KeyPerm p.2 w →
      normalizeForComparison p.2 = normalizeForComparison w) :
    (l.map fun p => (p.1, normalizeForComparison p.2)) =
      (m.map fun p => (p.1, normalizeForComparison p.2)) := by
  induction l generalizing m with
  | nil => cases h; rfl
  | cons p t iht =>
    obtain ⟨k, v⟩ := p
    cases h with
    | cons hv hrest =>
      simp only [List.map_cons]
      rw [ih (k, v) (by simp) _ (hwf (k, v) (by simp)) hv]
      rw [iht hrest (fun a ha => hwf a (List.mem_cons_of_mem (k, v) ha))
        (fun a ha => ih a (List.mem_cons_of_mem (k, v) ha))]

/-- `normalizeForComparison` sends key-reordered (at any depth) values of
a duplicate-free-keyed record to the same normal form. -/
theorem normalize_eq_of_keyPerm :
    ∀ v w, WFObj v → KeyPerm v w →
      normalizeForComparison v = normalizeForComparison w := by
  intro v
  induction v using JVal.indOn with
  | hnull => intro w _ hkp; cases hkp; rfl
  | hbool b => intro w _ hkp; cases hkp; rfl
  | hnum n => intro w _ hkp; cases hkp; rfl
  | hstr s => intro w _ hkp; cases hkp; rfl
  | harr xs ih =>
    intro w hwf hkp
    cases hkp with
    | jarr hlist =>
      cases hwf with
      | jarr hwfel =>
        rw [normalize_jarr, normalize_jarr]
        rw [keyPermList_map_eq hlist hwfel ih]
  | hobj l ih =>
    intro w hwf hkp
    cases hkp with
    | jobj hent hperm =>
      cases hwf with
      | jobj hnd hwfel =>
        rw [normalize_jobj, normalize_jobj]
        congr 1
        rw [keyPermEntries_map_eq hent hwfel ih]
        apply sortByKey_eq_of_perm
        · exact hperm.map _
        · rw [List.map_map]
          have hcomp : (Prod.fst ∘ fun p : String × JVal => (p.1, normalizeForComparison p.2))
              = Prod.fst := rfl
          rw [hcomp]
          rw [← keyPermEntries_keys_eq hent]
          exact hnd

/-! ## Deduplication -/

theorem dedupGo_spec (l : List JVal) : ∀ (seen dups : List String),
    (dedupGo seen dups l).1 = dedupSpecKeep seen l ∧
    (dedupGo seen dups l).1.length + (dedupGo seen dups l).2.2 = l.length ∧
    (dedupGo seen dups l).1.Sublist l := by
  induction l with
  | nil =>
    intro seen dups
    simp [dedupGo, dedupSpecKeep]
  | cons r t ih =>
    intro seen dups
    simp only [dedupGo, dedupSpecKeep]
    by_cases h : createRecordKey r ∈ seen
    · simp only [if_pos h]
      obtain ⟨h1, h2, h3⟩ := ih seen (identifyDuplicateKeys r dups)
      refine ⟨h1, ?_, h3.cons r⟩
      simp only [List.length_cons]
      omega
    · simp only [if_neg h]
      obtain ⟨h1, h2, h3⟩ := ih (createRecordKey r :: seen) dups
      refine ⟨by rw [h1], ?_, h3.cons₂ r⟩
      simp only [List.length_cons]
      omega

/-- C3: `deduplicateJSON` reports the input length, its counts add up,
and the kept records are exactly the spec's first-occurrence-wins
subsequence, in the original relative order. -/
theorem claim_C3_dedup_counts_first_occurrence (data : List JVal) :
    (deduplicateJSON data).originalCount = data.length ∧
    (deduplicateJSON data).deduplicatedCount + (deduplicateJSON data).removedCount
      = (deduplicateJSON data).originalCount ∧
    (deduplicateJSON data).deduplicatedData = dedupSpecKeep [] data ∧
    (deduplicateJSON data).deduplicatedData.Sublist data := by
  match data with
  | [] => simp [deduplicateJSON, dedupSpecKeep]
  | r :: t =>
    obtain ⟨h1, h2, h3⟩ := dedupGo_spec (r :: t) [] []
    exact ⟨rfl, h2, h1, h3⟩

/-- Two records with equal fingerprints: the second is dropped. -/
theorem dedup_pair_of_eq_key {r1 r2 : JVal}
    (h : createRecordKey r1 = createRecordKey r2) :
    (deduplicateJSON [r1, r2]).removedCount = 1 ∧
    (deduplicateJSON [r1, r2]).deduplicatedData = [r1] := by
  simp [deduplicateJSON, dedupGo, ← h]

/-- C8: the deduplication fingerprint is invariant under reordering of
object keys at every nesting depth, so of two key-reordered records the
later is removed as a duplicate of the earlier. -/
theorem claim_C8_fingerprint_key_order_invariance
    {l1 l2 : List (String × JVal)}
    (hwf : WFObj (jobj l1)) (hkp : KeyPerm (jobj l1) (jobj l2)) :
    createRecordKey (jobj l1) = createRecordKey (jobj l2) ∧
    (deduplicateJSON [jobj l1, jobj l2]).removedCount = 1 ∧
    (deduplicateJSON [jobj l1, jobj l2]).deduplicatedData = [jobj l1] := by
  have hkey : createRecordKey (jobj l1) = createRecordKey (jobj l2) := by
    simp only [createRecordKey]
    rw [normalize_eq_of_keyPerm _ _ hwf hkp]
  obtain ⟨hA, hB⟩ := dedup_pair_of_eq_key hkey
  exact ⟨hkey, hA, hB⟩

theorem claim_C8_witness :
    (WFObj (jobj [("a", jnum 1), ("b", jnum 2)]) ∧
     KeyPerm (jobj [("a", jnum 1), ("b", jnum 2)]) (jobj [("b", jnum 2), ("a", jnum 1)])) ∧
    (createRecordKey (jobj [("a", jnum 1), ("b", jnum 2)])
        = createRecordKey (jobj [("b", jnum 2), ("a", jnum 1)]) ∧
     (deduplicateJSON [jobj [("a", jnum 1), ("b", jnum 2)],
        jobj [("b", jnum 2), ("a", jnum 1)]]).removedCount = 1 ∧
     (deduplicateJSON [jobj [("a", jnum 1), ("b", jnum 2)],
        jobj [("b", jnum 2), ("a", jnum 1)]]).deduplicatedData
        = [jobj [("a", jnum 1), ("b", jnum 2)]]) := by
  have hwf : WFObj (jobj [("a", jnum 1), ("b", jnum 2)]) := by
    apply WFObj.jobj
    · decide
    · intro p hp
      cases hp with
      | head => exact WFObj.jnum 1
      | tail _ hp2 =>
        cases hp2 with
        | head => exact WFObj.jnum 2
        | tail _ hp3 => cases hp3
  have hkp : KeyPerm (jobj [("a", jnum 1), ("b", jnum 2)])
      (jobj [("b", jnum 2), ("a", jnum 1)]) := by
    apply KeyPerm.jobj
      (KeyPermEntries.cons (KeyPerm.jnum 1)
        (KeyPermEntries.cons (KeyPerm.jnum 2) KeyPermEntries.nil))
    exact List.Perm.swap ("b", jnum 2) ("a", jnum 1) []
  exact ⟨⟨hwf, hkp⟩, claim_C8_fingerprint_key_order_invariance hwf hkp⟩

/-- C10: for records that are not objects (and not null/undefined) the
fingerprint is JS `String(record)`, so `1` and `"1"` are mutual
duplicates, and `"null"` duplicates a `null` record. -/
theorem claim_C10_primitive_fingerprint :
    (∀ b, createRecordKey (jbool b) = jsToString (jbool b)) ∧
    (∀ n, createRecordKey (jnum n) = jsToString (jnum n)) ∧
    (∀ s, createRecordKey (jstr s) = jsToString (jstr s)) ∧
    createRecordKey (jnum 1) = createRecordKey (jstr "1") ∧
    createRecordKey (jstr "null") = createRecordKey jnull ∧
    (deduplicateJSON [jnum 1, jstr "1"]).removedCount = 1 ∧
    (deduplicateJSON [jnum 1, jstr "1"]).deduplicatedData = [jnum 1] ∧
    (deduplicateJSON [jstr "null", jnull]).removedCount = 1 := by
  exact ⟨fun b => rfl, fun n => rfl, fun s => rfl, rfl, rfl, rfl, rfl, rfl⟩

/-! ## Merger -/

theorem mergeStep_keep_first (firstKeys : List JVal) (acc : List JVal) (item : JVal) :
    mergeStep .keep_first firstKeys acc item
      = if getRecordKey item ∈ firstKeys then acc else acc ++ [item] := by
  simp only [mergeStep]
  by_cases h : getRecordKey item ∈ firstKeys
  · simp only [if_pos h]
    cases acc.findIdx? (fun existing => getRecordKey existing == getRecordKey item) <;> rfl
  · simp only [if_neg h]

theorem foldl_keep_first_count (firstKeys : List JVal) (k : JVal) (second : List JVal) :
    ∀ acc : List JVal,
    ((second.foldl (mergeStep .keep_first firstKeys) acc).map getRecordKey).count k
      = ((acc.map getRecordKey).count k)
        + (if k ∈ firstKeys then 0 else ((second.map getRecordKey).count k)) := by
  induction second with
  | nil =>
    intro acc
    simp
  | cons item t ih =>
    intro acc
    simp only [List.foldl_cons]
    rw [mergeStep_keep_first]
    by_cases hin : getRecordKey item ∈ firstKeys
    · rw [if_pos hin, ih]
      congr 1
      by_cases hk : k ∈ firstKeys
      · simp [hk]
      · rw [if_neg hk, if_neg hk]
        have hne : (getRecordKey item == k) = false := by
          simp only [beq_eq_false_iff_ne, ne_eq]
          intro he
          exact hk (he ▸ hin)
        simp [List.count_cons, hne]
    · rw [if_neg hin, ih]
      rw [List.map_append, List.count_append]
      by_cases hk : k ∈ firstKeys
      · rw [if_pos hk, if_pos hk]
        have hne : (getRecordKey item == k) = false := by
          simp only [beq_eq_false_iff_ne, ne_eq]
          intro he
          exact hin (he ▸ hk)
        simp [List.count_singleton, hne]
      · rw [if_neg hk, if_neg hk]
        simp only [List.map_cons, List.count_cons, List.map_nil, List.count_nil,
          List.count_singleton]
        omega

/-- C2 (amended): under strategy `merge` with `keep_first`, an identity
key already present in the left operand occurs in the output exactly as
often as it occurs in the left operand (conflicting right-operand
records add nothing), while a key that is new to the left operand occurs
once per right-operand record carrying it.  In particular the at-most-
once property holds only when the left operand's keys are distinct and
no new key repeats inside the right operand. -/
theorem claim_C2_amended_merge_key_multiplicity
    (first second : List JVal) (k : JVal) :
    ((combineJSONFiles [first, second] ⟨.merge, .keep_first⟩).map getRecordKey).count k
      = ((first.map getRecordKey).count k)
        + (if k ∈ first.map getRecordKey then 0
           else (second.map getRecordKey).count k) := by
  show ((second.foldl (mergeStep .keep_first (first.map getRecordKey)) first).map
      getRecordKey).count k = _
  rw [foldl_keep_first_count]

/-- C2 counterexample: two records of the right-hand operand share the
identity key `"A"`, new to the (empty) left operand; `merge` appends
both, so the key occurs twice in the output — the claimed at-most-once
invariant fails. -/
theorem claim_C2_counterexample :
    ¬ (((combineJSONFiles
          [[], [jobj [("artistName", jstr "A")], jobj [("artistName", jstr "A")]]]
          ⟨.merge, .keep_first⟩).map getRecordKey).Nodup) := by
  intro h
  have he : ((combineJSONFiles
      [[], [jobj [("artistName", jstr "A")], jobj [("artistName", jstr "A")]]]
      ⟨.merge, .keep_first⟩).map getRecordKey) = [jstr "A", jstr "A"] := rfl
  rw [he] at h
  simp at h

/-- A single-record conflict: when the right record's key equals the left
record's key, `keep_first` returns the left record unchanged and
`combine` returns the shallow merge (right fields winning). -/
theorem mergeArrays_single_conflict (r1 r2 : JVal)
    (h : getRecordKey r2 = getRecordKey r1) :
    mergeArrays [r1] [r2] .keep_first = [r1] ∧
    mergeArrays [r1] [r2] .combine = [shallowMerge r1 r2] := by
  constructor <;>
    simp [mergeArrays, mergeStep, h, List.getD_cons_zero]

/-- C6: on a same-key conflict under strategy `merge`, the
`conflictResolution` decides the outcome — `keep_first` keeps the left
record unchanged and `combine` lays the right record's fields over the
left record with the right side winning per field; concretely on the
spec's example records. -/
theorem claim_C6_merge_conflict_resolution :
    (combineJSONFiles [[jobj [("artistName", jstr "A"), ("x", jnum 1)]],
        [jobj [("artistName", jstr "A"), ("x", jnum 2)]]] ⟨.merge, .combine⟩
      = [jobj [("artistName", jstr "A"), ("x", jnum 2)]]) ∧
    (combineJSONFiles [[jobj [("artistName", jstr "A"), ("x", jnum 1)]],
        [jobj [("artistName", jstr "A"), ("x", jnum 2)]]] ⟨.merge, .keep_first⟩
      = [jobj [("artistName", jstr "A"), ("x", jnum 1)]]) ∧
    (∀ r1 r2 : JVal, getRecordKey r2 = getRecordKey r1 →
      mergeArrays [r1] [r2] .keep_first = [r1] ∧
      mergeArrays [r1] [r2] .combine = [shallowMerge r1 r2]) := by
  refine ⟨?_, ?_, fun r1 r2 h => mergeArrays_single_conflict r1 r2 h⟩
  · show mergeArrays [jobj [("artistName", jstr "A"), ("x", jnum 1)]]
      [jobj [("artistName", jstr "A"), ("x", jnum 2)]] .combine = _
    rw [(mergeArrays_single_conflict (jobj [("artistName", jstr "A"), ("x", jnum 1)])
      (jobj [("artistName", jstr "A"), ("x", jnum 2)]) rfl).2]
    rfl
  · show mergeArrays [jobj [("artistName", jstr "A"), ("x", jnum 1)]]
      [jobj [("artistName", jstr "A"), ("x", jnum 2)]] .keep_first = _
    exact (mergeArrays_single_conflict (jobj [("artistName", jstr "A"), ("x", jnum 1)])
      (jobj [("artistName", jstr "A"), ("x", jnum 2)]) rfl).1

theorem claim_C6_witness :
    getRecordKey (jobj [("artistName", jstr "B"), ("y", jnum 3)])
      = getRecordKey (jobj [("artistName", jstr "B")]) ∧
    (mergeArrays [jobj [("artistName", jstr "B")]]
        [jobj [("artistName", jstr "B"), ("y", jnum 3)]] .keep_first
      = [jobj [("artistName", jstr "B")]] ∧
     mergeArrays [jobj [("artistName", jstr "B")]]
        [jobj [("artistName", jstr "B"), ("y", jnum 3)]] .combine
      = [shallowMerge (jobj [("artistName", jstr "B")])
          (jobj [("artistName", jstr "B"), ("y", jnum 3)])]) :=
  ⟨rfl, claim_C6_merge_conflict_resolution.2.2 (jobj [("artistName", jstr "B")])
    (jobj [("artistName", jstr "B"), ("y", jnum 3)]) rfl⟩

/-! ## Projector -/

/-- Top-level entries whose key is neither selected nor an ancestor of
any selected path emit nothing, so the key is absent from the filtered
object. -/
theorem filterEntries_top_absent (sel : List String) (k : String)
    (hsel : k ∉ sel)
    (hanc : ∀ p ∈ sel, strStartsWith p (k ++ ".") = false) :
    ∀ entries : List (String × JVal),
      (filterEntries sel entries []).find? (fun p => p.1 == k) = none := by
  intro entries
  induction entries with
  | nil => simp [filterEntries]
  | cons p t ih =>
    obtain ⟨k2, v⟩ := p
    rw [filterEntries]
    by_cases hk2 : k2 = k
    · subst hk2
      have hany : (sel.any fun path => strStartsWith path (joinPath ([] ++ [k2]) ++ "."))
          = false := by
        rw [List.any_eq_false]
        intro p hp
        have := hanc p hp
        simpa using this
      rw [if_neg (by simpa using hsel)]
      rw [hany]
      simp only [Bool.and_false, Bool.false_eq_true, if_false, List.nil_append]
      exact ih
    · have hbk : ((k2, v).fst == k) = false := by
        simpa using hk2
      split_ifs <;>
        simp [List.find?_cons, hbk, ih]

theorem getField_filterObject_top (sel : List String) (entries : List (String × JVal))
    (k : String) :
    getField (filterObject sel (jobj entries) []) k
      = ((filterEntries sel entries []).find? (fun p => p.1 == k)).map Prod.snd := by
  rw [filterObject]
  rfl

/-- C5: `createModifiedJSON` keeps exactly the input records, in order
(it maps `filterObject` over them); a top-level field that is neither
selected nor an ancestor of a selected path is entirely absent from the
filtered record; and `[{a:1,b:2}]` with only `a` selected projects to
`[{a:1}]`, the key `b` fully absent. -/
theorem claim_C5_projection_shape (data : List JVal) (selectedFields : List FieldSel) :
    (createModifiedJSON data selectedFields).length = data.length ∧
    (createModifiedJSON data selectedFields
      = data.map (fun record => filterObject
          ((selectedFields.filter (fun f => f.isSelected)).map (fun f => f.key)) record [])) ∧
    (∀ (sel : List String) (entries : List (String × JVal)) (k : String),
      k ∉ sel → (∀ p ∈ sel, strStartsWith p (k ++ ".") = false) →
      getField (filterObject sel (jobj entries) []) k = none) ∧
    createModifiedJSON [jobj [("a", jnum 1), ("b", jnum 2)]] [⟨"a", true⟩, ⟨"b", false⟩]
      = [jobj [("a", jnum 1)]] := by
  refine ⟨by simp [createModifiedJSON], rfl, ?_, ?_⟩
  · intro sel entries k hsel hanc
    rw [getField_filterObject_top]
    rw [filterEntries_top_absent sel k hsel hanc entries]
    rfl
  · simp [createModifiedJSON, filterObject, filterEntries, joinPath, isObjectLike, keepNested,
      strStartsWith, startsWithChars]
    have h1 : (".".intercalate ["a"] : String) = "a" := rfl
    have h2 : (".".intercalate ["b"] : String) ≠ "a" := by decide
    rw [if_pos h1, if_neg h2]
    rfl

theorem claim_C5_witness :
    ("b" ∉ ["a"] ∧ (∀ p ∈ ["a"], strStartsWith p ("b" ++ ".") = false)) ∧
    getField (filterObject ["a"] (jobj [("a", jnum 1), ("b", jnum 2)]) []) "b" = none := by
  refine ⟨⟨by decide, by decide⟩, ?_⟩
  exact (claim_C5_projection_shape [] []).2.2.1 ["a"] [("a", jnum 1), ("b", jnum 2)] "b"
    (by decide) (by decide)

/-! ## SchemaAnalyzer -/

/-- C7: analyzing `[{a:1,b:{c:2}}]` discovers exactly the paths `a`,
`b`, `b.c` with types number, object, number, sorted by path string,
with one record counted. -/
theorem claim_C7_analyze_small_example :
    ((analyzeJSONStructure [jobj [("a", jnum 1), ("b", jobj [("c", jnum 2)])]]).fields.map
        (fun f => (f.key, f.type))
      = [("a", "number"), ("b", "object"), ("b.c", "number")]) ∧
    (analyzeJSONStructure [jobj [("a", jnum 1), ("b", jobj [("c", jnum 2)])]]).totalRecords
      = 1 := by
  constructor
  · simp [analyzeJSONStructure, extractFields, extractEntries, sortByKey, insertByKey,
      getValueType, getSampleValue, generateFieldDescription, descriptionTable, joinPath,
      isObjectLike, strIncludes, containsSub, startsWithChars, strStartsWith]
    decide
  · rfl

/-! ## TabularConverter: CSV row arity -/

theorem csvScan_no_special (s : List Char)
    (h : ∀ c ∈ s, c ≠ '"' ∧ c ≠ ',') :
    csvScan false s = (0, false) := by
  induction s with
  | nil => rfl
  | cons c t ih =>
    obtain ⟨h1, h2⟩ := h c (List.mem_cons_self c t)
    rw [csvScan]
    rw [if_neg (show ¬((c == '"') = true) by simpa using h1)]
    rw [ih (fun a ha => h a (List.mem_cons_of_mem c ha))]
    simp [h2]

theorem doubleQuotes_eq_self (s : List Char) (h : ∀ c ∈ s, c ≠ '"') :
    doubleQuotes s = s := by
  induction s with
  | nil => rfl
  | cons c t ih =>
    rw [doubleQuotes]
    rw [if_neg (show ¬((c == '"') = true) by
      simpa using h c (List.mem_cons_self c t))]
    rw [ih (fun a ha => h a (List.mem_cons_of_mem c ha))]

/-- Scanning a quote-doubled body followed by the closing quote, from
inside quotes, contributes no top-level commas and ends outside quotes. -/
theorem csvScan_doubled_close (s : List Char) :
    csvScan true (doubleQuotes s ++ ['"']) = (0, false) := by
  induction s with
  | nil => rfl
  | cons c t ih =>
    rw [doubleQuotes]
    by_cases hc : c = '"'
    · subst hc
      rw [if_pos (show (('"' : Char) == '"') = true by decide)]
      show csvScan true ('"' :: '"' :: (doubleQuotes t ++ ['"'])) = (0, false)
      rw [csvScan]
      rw [if_pos (show (('"' : Char) == '"') = true by decide)]
      rw [csvScan]
      rw [if_pos (show (('"' : Char) == '"') = true by decide)]
      exact ih
    · rw [if_neg (show ¬((c == '"') = true) by simpa using hc)]
      show csvScan true (c :: (doubleQuotes t ++ ['"'])) = (0, false)
      rw [csvScan]
      rw [if_neg (show ¬((c == '"') = true) by simpa using hc)]
      exact ih

/-- The quoting step always produces a clean field. -/
theorem csvEscapeStr_clean (str : List Char) :
    csvScan false (csvEscapeStr str) = (0, false) := by
  rw [csvEscapeStr]
  rcases Bool.eq_false_or_eq_true
      (str.any (fun c => c == '"' || c == ',' || c == '\n' || c == '\r')) with hb | hb
  · rw [if_pos hb]
    rw [csvScan]
    rw [if_pos (show (('"' : Char) == '"') = true by decide)]
    exact csvScan_doubled_close _
  · rw [if_neg (show ¬((str.any
        (fun c => c == '"' || c == ',' || c == '\n' || c == '\r')) = true) by simp [hb])]
    have hs : ∀ c ∈ str, c ≠ '"' ∧ c ≠ ',' := by
      intro c hc
      have h2 := List.any_eq_false.mp hb c hc
      simp only [Bool.or_eq_true, beq_iff_eq, not_or] at h2
      exact ⟨h2.1.1.1, h2.1.1.2⟩
    rw [doubleQuotes_eq_self str (fun c hc => (hs c hc).1)]
    exact csvScan_no_special str hs

/-- Every escaped CSV field is "clean": scanned from outside quotes it
contributes no top-level commas and ends outside quotes. -/
theorem csvEscape_clean (v : JVal) : csvScan false (csvEscape v) = (0, false) := by
  cases v with
  | jnull => simp [csvEscape, csvScan]
  | jbool b => exact csvEscapeStr_clean _
  | jnum n => exact csvEscapeStr_clean _
  | jstr s => exact csvEscapeStr_clean _
  | jarr xs => exact csvEscapeStr_clean _
  | jobj l => exact csvEscapeStr_clean _

/-- The scan is compositional: separator counts add and the quoting
state threads through. -/
theorem csvScan_append : ∀ (a : List Char) (q : Bool) (b : List Char),
    csvScan q (a ++ b)
      = ((csvScan q a).1 + (csvScan (csvScan q a).2 b).1,
         (csvScan (csvScan q a).2 b).2) := by
  intro a
  induction a with
  | nil =>
    intro q b
    simp [csvScan]
  | cons c t ih =>
    intro q b
    cases q with
    | true =>
      simp only [List.cons_append, csvScan, List.append_eq]
      rw [ih]
    | false =>
      simp only [List.cons_append, csvScan, List.append_eq]
      by_cases hc : (c == '"') = true
      · simp only [if_pos hc]
        rw [ih]
      · simp only [if_neg hc]
        rw [ih]
        simp only [Prod.mk.injEq]
        refine ⟨by omega, by simp⟩

/-- `csvScan_append` specialized to a known scan of the first part. -/
theorem csvScan_append2 {a b : List Char} {q q1 : Bool} {n1 : Nat}
    (h : csvScan q a = (n1, q1)) :
    csvScan q (a ++ b) = (n1 + (csvScan q1 b).1, (csvScan q1 b).2) := by
  rw [csvScan_append, h]

/-- Joining clean fields with commas yields one top-level comma per
joint and ends outside quotes. -/
theorem csvScan_joinWith : ∀ fs : List (List Char), fs ≠ [] →
    (∀ f ∈ fs, csvScan false f = (0, false)) →
    csvScan false (joinWith ',' fs) = (fs.length - 1, false) := by
  intro fs
  induction fs with
  | nil => intro h; exact absurd rfl h
  | cons x t ih =>
    intro _ h
    cases t with
    | nil =>
      rw [joinWith]
      rw [h x (List.mem_cons_self x [])]
      simp
    | cons y t2 =>
      have hrest : csvScan false (',' :: joinWith ',' (y :: t2))
          = ((y :: t2).length, false) := by
        simp only [csvScan]
        rw [if_neg (show ¬(((',' : Char) == '"') = true) by decide)]
        rw [ih (by simp) (fun f hf => h f (List.mem_cons_of_mem x hf))]
        simp
      rw [joinWith]
      rw [csvScan_append2 (h x (List.mem_cons_self x _))]
      rw [hrest]
      simp

/-- A data row built over a non-empty column list always parses into
exactly one field per column, whatever the record contains. -/
theorem csvRowFor_fieldCount (cols : List String) (record : JVal) (h : cols ≠ []) :
    csvFieldCount (csvRowFor cols record) = cols.length := by
  rw [csvRowFor, csvFieldCount]
  rw [csvScan_joinWith _ (by simpa using h)
    (fun f hf => by
      obtain ⟨col, _, hcol⟩ := List.mem_map.mp hf
      rw [← hcol]
      exact csvEscape_clean _)]
  simp only [List.length_map]
  have : cols.length ≠ 0 := fun h0 => h (List.length_eq_zero.mp h0)
  omega

/-- C9 (amended): for a record array whose first record derives at least
one column, every data row emitted by `convertToCSV` has exactly
`columns.length` top-level comma-separated fields, quoting taken into
account — missing paths become empty fields, never dropped columns.
(The second conjunct pins the rows `convertToCSV` emits.) -/
theorem claim_C9_amended_csv_row_arity (sample : JVal) (rest : List JVal) (record : JVal)
    (hmem : record ∈ sample :: rest)
    (hcols : (extractTableColumns sample).map Prod.fst ≠ []) :
    csvFieldCount (csvRowFor ((extractTableColumns sample).map Prod.fst) record)
      = (extractTableColumns sample).length ∧
    convertToCSV (sample :: rest)
      = String.mk (joinWith '\n'
          ((joinWith ',' (((extractTableColumns sample).map Prod.fst).map
              (fun col => (sanitizeColumnName col).data)))
           :: (sample :: rest).map (csvRowFor ((extractTableColumns sample).map Prod.fst)))) := by
  constructor
  · rw [csvRowFor_fieldCount _ _ hcols]
    simp
  · rw [convertToCSV]

theorem claim_C9_witness :
    ((jobj [("a", jnum 1)]) ∈ [jobj [("a", jnum 1)]] ∧
     (extractTableColumns (jobj [("a", jnum 1)])).map Prod.fst ≠ []) ∧
    csvFieldCount (csvRowFor ((extractTableColumns (jobj [("a", jnum 1)])).map Prod.fst)
        (jobj [("a", jnum 1)]))
      = (extractTableColumns (jobj [("a", jnum 1)])).length := by
  have hmem : (jobj [("a", jnum 1)]) ∈ [jobj [("a", jnum 1)]] :=
    List.mem_cons_self _ _
  have hcols : (extractTableColumns (jobj [("a", jnum 1)])).map Prod.fst ≠ [] := by
    simp [extractTableColumns, extractFromEntries]
  exact ⟨⟨hmem, hcols⟩,
    (claim_C9_amended_csv_row_arity (jobj [("a", jnum 1)]) [] (jobj [("a", jnum 1)])
      hmem hcols).1⟩

/-- C9 counterexample: a first record that derives no columns (the empty
object) produces data rows that still parse into one (empty) field,
while the column list has length zero — the claimed equality fails
there. -/
theorem claim_C9_counterexample :
    ((extractTableColumns (jobj [])).map Prod.fst).length = 0 ∧
    csvFieldCount (csvRowFor ((extractTableColumns (jobj [])).map Prod.fst) (jobj [])) = 1 := by
  constructor
  · simp [extractTableColumns, extractFromEntries]
  · have hcols : (extractTableColumns (jobj [])).map Prod.fst = [] := by
      simp [extractTableColumns, extractFromEntries]
    rw [hcols]
    rw [csvRowFor, csvFieldCount]
    simp [joinWith, csvScan]

/-! ## RateLimiter -/

theorem length_filter_le_of_imp {α : Type} (p q : α → Bool) (l : List α)
    (h : ∀ a, p a = true → q a = true) :
    (l.filter p).length ≤ (l.filter q).length := by
  induction l with
  | nil => simp
  | cons x t ih =>
    simp only [List.filter_cons]
    by_cases hp : p x = true
    · rw [if_pos hp, if_pos (h x hp)]
      simpa using ih
    · rw [if_neg hp]
      by_cases hq : q x = true
      · rw [if_pos hq]
        simp only [List.length_cons]
        omega
      · rw [if_neg hq]
        exact ih

/-- The inductive invariant of the limiter: the trailing-window count
never exceeds `maxCalls` (for the current clock), every recorded
admission timestamp is in the past, and the settlements so far followed
by the pending queue's outcomes are exactly the enqueued operations'
outcomes, in submission order. -/
theorem rl_inv (cfg : RLConfig) :
    ∀ s, RLReachable cfg s →
      inWindowCount cfg s.callTimes s.now ≤ cfg.maxCalls ∧
      (∀ t ∈ s.callTimes, t ≤ s.now) ∧
      s.settled ++ s.queue.map settleOp = s.enqueuedAll.map settleOp := by
  intro s h
  induction h with
  | refl =>
    refine ⟨?_, ?_, ?_⟩ <;> simp [RLInit, inWindowCount]
  | @tail b c hsteps hstep ih =>
    obtain ⟨ih1, ih2, ih3⟩ := ih
    cases hstep with
    | enqueue op =>
      refine ⟨ih1, ih2, ?_⟩
      simp only [List.map_append]
      rw [← List.append_assoc, ih3]
    | tick d =>
      refine ⟨?_, ?_, ih3⟩
      · refine le_trans (length_filter_le_of_imp _ _ _ ?_) ih1
        intro a ha
        simp only [decide_eq_true_eq] at ha ⊢
        omega
      · intro t ht
        exact le_trans (ih2 t ht) (Nat.le_add_right _ _)
    | admitStep op rest t2 hq hcap ht =>
      refine ⟨?_, ?_, ?_⟩
      · show (((b.callTimes.filter (fun t => decide (b.now - t < cfg.timeWindow)))
            ++ [t2]).filter (fun t => decide (t2 - t < cfg.timeWindow))).length
            ≤ cfg.maxCalls
        rw [List.filter_append, List.length_append]
        have h1 : ((b.callTimes.filter
            (fun t => decide (b.now - t < cfg.timeWindow))).filter
              (fun t => decide (t2 - t < cfg.timeWindow))).length
            ≤ (b.callTimes.filter
                (fun t => decide (b.now - t < cfg.timeWindow))).length :=
          List.length_filter_le _ _
        have h2 : (([t2] : List Nat).filter
            (fun t => decide (t2 - t < cfg.timeWindow))).length ≤ 1 :=
          List.length_filter_le _ _
        have h3 : (b.callTimes.filter
            (fun t => decide (b.now - t < cfg.timeWindow))).length < cfg.maxCalls := hcap
        omega
      · intro t htmem
        show t ≤ t2
        rcases List.mem_append.mp htmem with h1 | h1
        · exact le_trans (ih2 t (List.mem_of_mem_filter h1)) ht
        · simp only [List.mem_singleton] at h1
          omega
      · show (b.settled ++ [settleOp op]) ++ rest.map settleOp
            = b.enqueuedAll.map settleOp
        rw [List.append_assoc]
        simp only [List.singleton_append]
        rw [← List.map_cons]
        rw [← hq]
        exact ih3

/-- C1: in every reachable state of a rate limiter with positive
`maxCalls` and `timeWindow`, the number of recorded admission timestamps
inside the trailing window never exceeds `maxCalls`; and a step that
admits (settles) a call is possible only when the pruned in-window count
is strictly below the bound — at the bound the worker can only wait
(let time pass) and re-check. -/
theorem claim_C1_rate_limit_window (cfg : RLConfig)
    (hmax : 0 < cfg.maxCalls) (hwin : 0 < cfg.timeWindow)
    (s : RLState) (hreach : RLReachable cfg s) :
    inWindowCount cfg s.callTimes s.now ≤ cfg.maxCalls ∧
    (∀ s2, RLStep cfg s s2 → s2.settled.length > s.settled.length →
      inWindowCount cfg s.callTimes s.now < cfg.maxCalls) := by
  refine ⟨(rl_inv cfg s hreach).1, ?_⟩
  intro s2 hstep hgrow
  cases hstep with
  | enqueue op => exact absurd hgrow (lt_irrefl _)
  | tick d => exact absurd hgrow (lt_irrefl _)
  | admitStep op rest t2 hq hcap ht => exact hcap

theorem claim_C1_witness :
    (0 < (2 : Nat) ∧ 0 < (1000 : Nat) ∧
     RLReachable ⟨2, 1000⟩ ⟨[], [5], 5, [.resolved jnull], [.ok jnull]⟩) ∧
    inWindowCount ⟨2, 1000⟩ [5] 5 ≤ 2 := by
  have hreach : RLReachable ⟨2, 1000⟩ ⟨[], [5], 5, [.resolved jnull], [.ok jnull]⟩ := by
    have h1 : RLStep ⟨2, 1000⟩ RLInit ⟨[.ok jnull], [], 0, [], [.ok jnull]⟩ :=
      RLStep.enqueue RLInit (.ok jnull)
    have h2 : RLStep ⟨2, 1000⟩ ⟨[.ok jnull], [], 0, [], [.ok jnull]⟩
        ⟨[], [5], 5, [.resolved jnull], [.ok jnull]⟩ :=
      RLStep.admitStep _ (.ok jnull) [] 5 rfl (by decide) (by decide)
    exact Relation.ReflTransGen.tail (Relation.ReflTransGen.single h1) h2
  exact ⟨⟨by decide, by decide, hreach⟩,
    (claim_C1_rate_limit_window ⟨2, 1000⟩ (by decide) (by decide) _ hreach).1⟩

/-- C4: an enqueued operation that rejects settles its own promise with
exactly its own error; settlements follow submission order, so in every
reachable state the settlements so far plus the pending outcomes equal
the enqueued outcomes (in particular a drained queue has settled
everything), and whatever the head of the queue is — including a
rejecting operation — the limiter can always take a step that settles
it, so a failure neither corrupts the queue nor blocks later calls. -/
theorem claim_C4_error_isolation (cfg : RLConfig) (hmax : 0 < cfg.maxCalls)
    (s : RLState) (hreach : RLReachable cfg s) :
    (∀ e, settleOp (.error e) = .rejected e) ∧
    s.settled ++ s.queue.map settleOp = s.enqueuedAll.map settleOp ∧
    (s.queue = [] → s.settled = s.enqueuedAll.map settleOp) ∧
    (∀ op rest, s.queue = op :: rest →
      ∃ s1 s2, RLStep cfg s s1 ∧ RLStep cfg s1 s2 ∧
        s2.settled = s.settled ++ [settleOp op]) := by
  obtain ⟨inv1, inv2, inv3⟩ := rl_inv cfg s hreach
  refine ⟨fun e => rfl, inv3, ?_, ?_⟩
  · intro hq
    rw [hq] at inv3
    simpa using inv3
  · intro op rest hq
    refine ⟨{ s with now := s.now + cfg.timeWindow }, _,
      RLStep.tick s cfg.timeWindow, RLStep.admitStep _ op rest (s.now + cfg.timeWindow) hq ?_
        (le_refl _), rfl⟩
    show inWindowCount cfg s.callTimes (s.now + cfg.timeWindow) < cfg.maxCalls
    have hempty : s.callTimes.filter
        (fun t => decide ((s.now + cfg.timeWindow) - t < cfg.timeWindow)) = [] := by
      rw [List.filter_eq_nil_iff]
      intro t htmem
      have := inv2 t htmem
      simp only [decide_eq_true_eq]
      omega
    rw [inWindowCount, hempty]
    simpa using hmax

theorem claim_C4_witness :
    (0 < (1 : Nat) ∧
     RLReachable ⟨1, 1000⟩ ⟨[.error "boom"], [], 0, [], [.error "boom"]⟩) ∧
    (settleOp (.error "boom") = .rejected "boom" ∧
     ([] : List Settlement) ++ ([Except.error "boom"] : List AsyncOp).map settleOp
       = ([Except.error "boom"] : List AsyncOp).map settleOp ∧
     (∃ s1 s2, RLStep ⟨1, 1000⟩ ⟨[.error "boom"], [], 0, [], [.error "boom"]⟩ s1 ∧
        RLStep ⟨1, 1000⟩ s1 s2 ∧
        s2.settled = ([] : List Settlement) ++ [settleOp (.error "boom")])) := by
  have hreach : RLReachable ⟨1, 1000⟩ ⟨[.error "boom"], [], 0, [], [.error "boom"]⟩ :=
    Relation.ReflTransGen.single (RLStep.enqueue RLInit (.error "boom"))
  obtain ⟨h1, h2, _, h4⟩ := claim_C4_error_isolation ⟨1, 1000⟩ (by decide) _ hreach
  exact ⟨⟨by decide, hreach⟩, h1 "boom", h2, h4 (.error "boom") [] rfl⟩

end Artist2Json
